import Mathlib

/-!
# Verification of `gomodule`

Shallow embeddings of the `Counter` rate limiter (`limiter/counter.go`), of the
in-memory cache (`cache/memory.go`) and of the delayed-task scheduler
(`delaytask/delaytask.go`), and the proofs of their properties. The
definitions come first, one namespace for each package, then the theorems.

Modelling choices:

* Go `int` is the 64-bit two's-complement integer: a field holds an `Int`, and
  every arithmetic result of the code (`l.rate-1`, `l.count++`) goes through
  `wrapInt`.
* `time.Time` is an `Int`: the number of nanoseconds since the zero `Time`.
  `time.Duration` is a 64-bit count of nanoseconds. `Time.Sub` is the
  saturating difference of the Go library.
* `time.Now()` is an input: `Allow` and `Set` take the instant the clock shows
  when they are called.
* The mutex is not modelled: a call to `Allow` is one atomic step on the state.
-/

namespace limiter

/-- Smallest value of a Go `int` (64 bit). -/
def minInt : Int := -9223372036854775808

/-- Largest value of a Go `int` (64 bit). -/
def maxInt : Int := 9223372036854775807

/-- Smallest `time.Duration`. -/
def minDuration : Int := -9223372036854775808

/-- Largest `time.Duration`. -/
def maxDuration : Int := 9223372036854775807

/-- Two's-complement wrap-around of a 64-bit signed result. -/
def wrapInt (x : Int) : Int :=
  (x + 9223372036854775808) % 18446744073709551616 - 9223372036854775808

/-- Go's `t.Sub(u)`: the duration `t-u`, saturated at the largest and the
smallest `Duration` when the difference is not representable. -/
def Sub (t u : Int) : Int :=
  if maxDuration < t - u then maxDuration
  else if t - u < minDuration then minDuration
  else t - u

/-- The `Counter` struct without its mutex. -/
structure Counter where
  /-- Field `rate`: the most requests allowed in one counting cycle. -/
  rate : Int
  /-- Field `begin`: the start of the counting cycle, a `time.Time`. -/
  begin : Int
  /-- Field `cycle`: the length of the counting cycle, a `time.Duration`. -/
  cycle : Int
  /-- Field `count`: the requests counted in the cycle. -/
  count : Int
deriving DecidableEq, Repr

/-- The zero value `var lr Counter`, on which `Set` was never called. -/
def Counter.zero : Counter :=
  { rate := 0, begin := 0, cycle := 0, count := 0 }

/-- The fields hold 64-bit values, as the Go types `int` and `time.Duration`
force. -/
def Counter.InRange (l : Counter) : Prop :=
  (minInt ≤ l.rate ∧ l.rate ≤ maxInt) ∧
  (minDuration ≤ l.cycle ∧ l.cycle ≤ maxDuration) ∧
  (minInt ≤ l.count ∧ l.count ≤ maxInt)

instance (l : Counter) : Decidable l.InRange := by
  unfold Counter.InRange
  infer_instance

/-- `func (l *Counter) Reset(t time.Time)`. -/
def Counter.Reset (l : Counter) (t : Int) : Counter :=
  { l with begin := t, count := 0 }

/-- `func (l *Counter) Allow() bool`, with `now` the value of `time.Now()`.
Returns the result and the state of the counter after the call. -/
def Counter.Allow (l : Counter) (now : Int) : Bool × Counter :=
  if l.count = wrapInt (l.rate - 1) then
    if Sub now l.begin ≥ l.cycle then
      (true, l.Reset now)
    else
      (false, l)
  else
    (true, { l with count := wrapInt (l.count + 1) })

/-- `func (l *Counter) Set(r int, cycle time.Duration)`, with `now` the value
of `time.Now()`. -/
def Counter.Set (l : Counter) (r : Int) (cycle : Int) (now : Int) : Counter :=
  { l with rate := r, begin := now, cycle := cycle, count := 0 }

/-- The state of the counter after `Allow` was called at each instant of `ts`,
in order. -/
def Counter.after (l : Counter) : List Int → Counter
  | [] => l
  | t :: ts => Counter.after (l.Allow t).2 ts

/-- The results of calling `Allow` at each instant of `ts`, in order, each with
the instant of its call. -/
def Counter.outcomes (l : Counter) : List Int → List (Int × Bool)
  | [] => []
  | t :: ts => (t, (l.Allow t).1) :: Counter.outcomes (l.Allow t).2 ts

/-- The number of calls of `ts` that `Allow` admits and that are made before
`deadline`. -/
def Counter.admittedBefore (l : Counter) (deadline : Int) (ts : List Int) : Nat :=
  ((l.outcomes ts).filter (fun p => p.2 && decide (p.1 < deadline))).length

/-- The call of `Allow` at `now` rolls the window: it takes the branch that
calls `Reset`. -/
def Counter.rolls (l : Counter) (now : Int) : Bool :=
  decide (l.count = wrapInt (l.rate - 1)) && decide (Sub now l.begin ≥ l.cycle)

/-- The invariant of a configured counter: a positive 64-bit `rate` and a
`count` between 0 and `rate-1`. -/
def Counter.Bounded (l : Counter) : Prop :=
  1 ≤ l.rate ∧ l.rate ≤ maxInt ∧ 0 ≤ l.count ∧ l.count ≤ l.rate - 1

end limiter

/-! # In-memory cache (`cache/memory.go`) -/

namespace cache

/-- A dynamically typed Go value (`interface{}`): `nil`, one of the six integer
types that `Incr` and `Decr` support, or a value of any other type. -/
inductive Value where
  | nil
  | int (n : Int)
  | int32 (n : Int)
  | int64 (n : Int)
  | uint (n : Nat)
  | uint32 (n : Nat)
  | uint64 (n : Nat)
  | other (s : String)
deriving DecidableEq, Repr

/-- The four errors that the methods of `MemoryCache` return. -/
inductive CacheError where
  | notExist
  | deleteFailed
  | notInteger
  | belowZero
deriving DecidableEq, Repr

/-- Two's-complement wrap-around of a 32-bit signed result. -/
def wrapInt32 (x : Int) : Int :=
  (x + 2147483648) % 4294967296 - 2147483648

/-- The struct `MemoryItem`. -/
structure MemoryItem where
  /-- Field `val`. -/
  val : Value
  /-- Field `createdAt`, a `time.Time`. -/
  createdAt : Int
  /-- Field `ttr`, a `time.Duration`. -/
  ttr : Int
deriving DecidableEq, Repr

/-- `func (m *MemoryItem) isExpire() bool`, with `now` the value of
`time.Now()`. -/
def MemoryItem.isExpire (m : MemoryItem) (now : Int) : Bool :=
  if m.ttr = 0 then false
  else decide (limiter.Sub now m.createdAt > m.ttr)

/-- The map read `items[name]`, on a map held as a list of entries. -/
def mapIndex (name : String) : List (String × MemoryItem) → Option MemoryItem
  | [] => none
  | p :: ps => if p.1 = name then some p.2 else mapIndex name ps

/-- The map deletion `delete(items, name)`. -/
def mapDelete (name : String) (items : List (String × MemoryItem)) :
    List (String × MemoryItem) :=
  items.filter (fun p => decide (p.1 ≠ name))

/-- The map assignment `items[name] = item`. -/
def mapAssign (name : String) (item : MemoryItem)
    (items : List (String × MemoryItem)) : List (String × MemoryItem) :=
  (name, item) :: mapDelete name items

/-- The assignment `item.val = v` through the pointer that `items[name]`
returned. -/
def setVal (name : String) (v : Value) :
    List (String × MemoryItem) → List (String × MemoryItem)
  | [] => []
  | p :: ps =>
    if p.1 = name then (p.1, { p.2 with val := v }) :: ps
    else p :: setVal name v ps

/-- The struct `MemoryCache` without its lock. -/
structure MemoryCache where
  /-- Field `duration`. -/
  duration : Int
  /-- Field `items`. -/
  items : List (String × MemoryItem)
  /-- Field `Every`. -/
  Every : Int
deriving DecidableEq, Repr

/-- `func NewMemoryCache() Cache`. -/
def NewMemoryCache : MemoryCache :=
  { duration := 0, items := [], Every := 0 }

/-- `func (bc *MemoryCache) Get(name string) interface{}`. -/
def MemoryCache.Get (bc : MemoryCache) (name : String) (now : Int) : Value :=
  match mapIndex name bc.items with
  | some item => if item.isExpire now then Value.nil else item.val
  | none => Value.nil

/-- `func (bc *MemoryCache) Put(name string, value interface{}, ttr
time.Duration) error`. -/
def MemoryCache.Put (bc : MemoryCache) (name : String) (value : Value) (ttr : Int)
    (now : Int) : Option CacheError × MemoryCache :=
  (none, { bc with
    items := mapAssign name { val := value, createdAt := now, ttr := ttr } bc.items })

/-- `func (bc *MemoryCache) Delete(name string) error`. -/
def MemoryCache.Delete (bc : MemoryCache) (name : String) :
    Option CacheError × MemoryCache :=
  match mapIndex name bc.items with
  | none => (some CacheError.notExist, bc)
  | some _ =>
    match mapIndex name (mapDelete name bc.items) with
    | some _ => (some CacheError.deleteFailed, { bc with items := mapDelete name bc.items })
    | none => (none, { bc with items := mapDelete name bc.items })

/-- `func (bc *MemoryCache) Incr(key string) error`. -/
def MemoryCache.Incr (bc : MemoryCache) (key : String) :
    Option CacheError × MemoryCache :=
  match mapIndex key bc.items with
  | none => (some CacheError.notExist, bc)
  | some item =>
    match item.val with
    | Value.int n =>
      (none, { bc with items := setVal key (Value.int (limiter.wrapInt (n + 1))) bc.items })
    | Value.int32 n =>
      (none, { bc with items := setVal key (Value.int32 (wrapInt32 (n + 1))) bc.items })
    | Value.int64 n =>
      (none, { bc with items := setVal key (Value.int64 (limiter.wrapInt (n + 1))) bc.items })
    | Value.uint n =>
      (none, { bc with
        items := setVal key (Value.uint ((n + 1) % 18446744073709551616)) bc.items })
    | Value.uint32 n =>
      (none, { bc with items := setVal key (Value.uint32 ((n + 1) % 4294967296)) bc.items })
    | Value.uint64 n =>
      (none, { bc with
        items := setVal key (Value.uint64 ((n + 1) % 18446744073709551616)) bc.items })
    | _ => (some CacheError.notInteger, bc)

/-- `func (bc *MemoryCache) Decr(key string) error`. -/
def MemoryCache.Decr (bc : MemoryCache) (key : String) :
    Option CacheError × MemoryCache :=
  match mapIndex key bc.items with
  | none => (some CacheError.notExist, bc)
  | some item =>
    match item.val with
    | Value.int n =>
      (none, { bc with items := setVal key (Value.int (limiter.wrapInt (n - 1))) bc.items })
    | Value.int64 n =>
      (none, { bc with items := setVal key (Value.int64 (limiter.wrapInt (n - 1))) bc.items })
    | Value.int32 n =>
      (none, { bc with items := setVal key (Value.int32 (wrapInt32 (n - 1))) bc.items })
    | Value.uint n =>
      if n > 0 then (none, { bc with items := setVal key (Value.uint (n - 1)) bc.items })
      else (some CacheError.belowZero, bc)
    | Value.uint32 n =>
      if n > 0 then (none, { bc with items := setVal key (Value.uint32 (n - 1)) bc.items })
      else (some CacheError.belowZero, bc)
    | Value.uint64 n =>
      if n > 0 then (none, { bc with items := setVal key (Value.uint64 (n - 1)) bc.items })
      else (some CacheError.belowZero, bc)
    | _ => (some CacheError.notInteger, bc)

/-- `func (bc *MemoryCache) IsExist(name string) bool`. -/
def MemoryCache.IsExist (bc : MemoryCache) (name : String) (now : Int) : Bool :=
  match mapIndex name bc.items with
  | some v => !v.isExpire now
  | none => false

/-- `func (bc *MemoryCache) ClearAll() error`. -/
def MemoryCache.ClearAll (bc : MemoryCache) : Option CacheError × MemoryCache :=
  (none, { bc with items := [] })

/-- `func (bc *MemoryCache) expiredKeys() (keys []string)`: the keys whose
entry `isExpire` reports expired (the comment in the source speaks of the keys
still valid; the code collects the expired ones). The loop calls `time.Now()`
once for each entry: `clock key` is the instant at which the entry of `key` is
examined. -/
def MemoryCache.expiredKeys (bc : MemoryCache) (clock : String → Int) : List String :=
  (bc.items.filter (fun p => p.2.isExpire (clock p.1))).map Prod.fst

/-- `func (bc *MemoryCache) clearItems(keys []string)`. -/
def MemoryCache.clearItems (bc : MemoryCache) (keys : List String) : MemoryCache :=
  { bc with items := keys.foldl (fun items key => mapDelete key items) bc.items }

/-- One round of the loop of `vacuum`, after its wait: `expiredKeys`, then
`clearItems` when a key was found. -/
def MemoryCache.vacuumRound (bc : MemoryCache) (clock : String → Int) : MemoryCache :=
  if (bc.expiredKeys clock).length ≠ 0 then bc.clearItems (bc.expiredKeys clock)
  else bc

/-- The cache together with the local variable `keys` of the `vacuum`
goroutine, which holds the result of `expiredKeys` until `clearItems` has
run. -/
structure World where
  /-- The shared cache. -/
  cache : MemoryCache
  /-- The keys that the last `expiredKeys` returned and `clearItems` has not yet
  deleted. -/
  keys : List String

/-- The calls that change the cache or the `keys` of `vacuum`. Each holds the
lock of the cache for its whole body, so a run of the program is a sequence of
them. `Get`, `GetMulti` and `IsExist` change nothing and are left out. -/
inductive Op where
  | Put (name : String) (value : Value) (ttr : Int) (now : Int)
  | Delete (name : String)
  | Incr (key : String)
  | Decr (key : String)
  | ClearAll
  | expiredKeys (clock : String → Int)
  | clearItems

/-- The effect of one call on the world. -/
def World.step (w : World) : Op → World
  | Op.Put name value ttr now => { w with cache := (w.cache.Put name value ttr now).2 }
  | Op.Delete name => { w with cache := (w.cache.Delete name).2 }
  | Op.Incr key => { w with cache := (w.cache.Incr key).2 }
  | Op.Decr key => { w with cache := (w.cache.Decr key).2 }
  | Op.ClearAll => { w with cache := (w.cache.ClearAll).2 }
  | Op.expiredKeys clock => { w with keys := w.cache.expiredKeys clock }
  | Op.clearItems =>
    if w.keys.length ≠ 0 then { cache := w.cache.clearItems w.keys, keys := [] }
    else { w with keys := [] }

/-- The world after a sequence of calls. -/
def World.run (w : World) (ops : List Op) : World :=
  ops.foldl World.step w

/-- The call is a `Put` or a `Delete` of the key, or a `ClearAll`. -/
def Op.replaces (name : String) : Op → Bool
  | Op.Put n _ _ _ => decide (n = name)
  | Op.Delete n => decide (n = name)
  | Op.ClearAll => true
  | _ => false

/-- The call is an `Incr` or a `Decr` of the key. -/
def Op.adjusts (name : String) : Op → Bool
  | Op.Incr n => decide (n = name)
  | Op.Decr n => decide (n = name)
  | _ => false

/-- The entries of the map under one key. -/
def entriesOf (name : String) (items : List (String × MemoryItem)) :
    List (String × MemoryItem) :=
  items.filter (fun p => decide (p.1 = name))

/-- The key has exactly one entry, created at `t0` with `ttr = 0` and holding
`v`, and `vacuum` does not hold the key for deletion. -/
def World.Pinned (w : World) (name : String) (t0 : Int) (v : Value) : Prop :=
  entriesOf name w.cache.items = [(name, { val := v, createdAt := t0, ttr := 0 })] ∧
    name ∉ w.keys

end cache

/-! # Delayed tasks (`delaytask/delaytask.go`) -/

namespace delaytask

/-- A task id, a Go `interface{}`: the tests use integers and strings. -/
inductive TaskId where
  | int (n : Int)
  | str (s : String)
deriving DecidableEq, Repr

/-- Modelled from the spec: the time wheel of the external package
`github.com/ouqiang/timewheel`, which is not part of the repository, as the
ids of its pending timers: those added, not yet removed and not yet fired. -/
structure TimeWheel where
  /-- The ids of the pending timers, oldest first. -/
  pending : List TaskId
deriving DecidableEq, Repr

/-- Modelled from the spec: `tw.AddTimer(delay, key, data)` makes one more
timer pending. -/
def TimeWheel.AddTimer (tw : TimeWheel) (_delay : Int) (key : TaskId) : TimeWheel :=
  { pending := tw.pending ++ [key] }

/-- Modelled from the spec: `tw.RemoveTimer(key)` removes the pending timers of
that key and does nothing when there is none. -/
def TimeWheel.RemoveTimer (tw : TimeWheel) (key : TaskId) : TimeWheel :=
  { pending := tw.pending.filter (fun k => decide (k ≠ key)) }

/-- The struct `Task`. -/
structure Task where
  /-- Field `Id`. -/
  Id : TaskId
  /-- Field `Delay`, a `time.Duration`. -/
  Delay : Int
  /-- Field `Options`. -/
  Options : String
deriving DecidableEq, Repr

/-- A value of the interface `Tasker`, given by what `self()` and `Register()`
return. -/
structure Tasker where
  /-- The result of `self()`. -/
  self : Task
  /-- The result of `Register()`. -/
  Register : List Task
deriving DecidableEq, Repr

/-- The struct `DelayTask` without its lock. -/
structure DelayTask where
  /-- Field `tw`. -/
  tw : TimeWheel
  /-- Field `count`, a `uint64`. -/
  count : Nat
deriving DecidableEq, Repr

/-- The struct that `NewDelayTask` builds: a wheel without timers and
`count = 0`. -/
def DelayTask.new : DelayTask :=
  { tw := { pending := [] }, count := 0 }

/-- `func (d *DelayTask) addTask(delay time.Duration, taskId, options
interface{})`. -/
def DelayTask.addTask (d : DelayTask) (delay : Int) (taskId : TaskId) : DelayTask :=
  { tw := d.tw.AddTimer delay taskId,
    count := (d.count + 1) % 18446744073709551616 }

/-- `func (d *DelayTask) AddRegister(tasker ...Tasker)`. -/
def DelayTask.AddRegister (d : DelayTask) (tasker : List Tasker) : DelayTask :=
  tasker.foldl
    (fun d t => t.Register.foldl (fun d task => d.addTask task.Delay task.Id) d) d

/-- `func (d *DelayTask) RemoveTask(taskId interface{})`. -/
def DelayTask.RemoveTask (d : DelayTask) (taskId : TaskId) : DelayTask :=
  { tw := d.tw.RemoveTimer taskId,
    count := (d.count + 18446744073709551616 - 1) % 18446744073709551616 }

/-- Modelled from the spec: the wheel drops a timer that has run out. -/
def DelayTask.expire (d : DelayTask) (taskId : TaskId) : DelayTask :=
  { d with tw := { pending := d.tw.pending.erase taskId } }

/-- The function that `NewDelayTask` hands to `timewheel.New`, as it acts on the
scheduler that the package variable `delayTask` points to: `delayTask.count -= 1`. -/
def DelayTask.callback (d : DelayTask) : DelayTask :=
  { d with count := (d.count + 18446744073709551616 - 1) % 18446744073709551616 }

/-- The assignment `*ptr = f(*ptr)` on the scheduler at position `i`. -/
def modifyAt (f : DelayTask → DelayTask) : Nat → List DelayTask → List DelayTask
  | _, [] => []
  | 0, d :: ds => f d :: ds
  | i + 1, d :: ds => d :: modifyAt f i ds

/-- The state of the package: the schedulers made so far, and the package
variable `delayTask`. A `*DelayTask` is a position in `schedulers`. -/
structure Package where
  /-- The schedulers that `NewDelayTask` has made, oldest first. -/
  schedulers : List DelayTask
  /-- The variable `var delayTask *DelayTask`; `none` is the nil pointer. -/
  delayTask : Option Nat
deriving DecidableEq, Repr

/-- The package before any call: no scheduler, `delayTask` nil. -/
def Package.init : Package :=
  { schedulers := [], delayTask := none }

/-- A method call on the scheduler that the pointer `i` points to. -/
def Package.onScheduler (p : Package) (i : Nat) (f : DelayTask → DelayTask) : Package :=
  { p with schedulers := modifyAt f i p.schedulers }

/-- `func NewDelayTask() *DelayTask`: makes a scheduler, stores its address in
the package variable `delayTask` and returns it. -/
def NewDelayTask (p : Package) : Nat × Package :=
  (p.schedulers.length,
    { schedulers := p.schedulers ++ [DelayTask.new],
      delayTask := some p.schedulers.length })

/-- The timer `taskId` of the scheduler at `i` runs out: its wheel drops the
timer and calls the function that `NewDelayTask` gave it, which subtracts 1
from the `count` of the scheduler that `delayTask` points to at that
moment. -/
def Package.fire (p : Package) (i : Nat) (taskId : TaskId) : Package :=
  match p.schedulers[i]? with
  | none => p
  | some d =>
    if taskId ∈ d.tw.pending then
      match p.delayTask with
      | none => p.onScheduler i (fun d => d.expire taskId)
      | some j =>
        (p.onScheduler i (fun d => d.expire taskId)).onScheduler j DelayTask.callback
    else p

/-- `func AddTask(tasker ...Tasker)`; `none` is the panic on a nil
`delayTask`. -/
def AddTask (p : Package) : List Tasker → Option Package
  | [] => some p
  | t :: ts =>
    match p.delayTask with
    | none => none
    | some i => AddTask (p.onScheduler i (fun d => d.addTask t.self.Delay t.self.Id)) ts

/-- `func RemoveTask(taskId interface{})`; `none` is the panic on a nil
`delayTask`. -/
def RemoveTask (p : Package) (taskId : TaskId) : Option Package :=
  match p.delayTask with
  | none => none
  | some i => some (p.onScheduler i (fun d => d.RemoveTask taskId))

/-- `func Count() uint64`; `none` is the panic on a nil `delayTask`. -/
def Count (p : Package) : Option Nat :=
  match p.delayTask with
  | none => none
  | some i => (p.schedulers[i]?).map (fun d => d.count)

/-- The task that `TestRemoveDelayTask` adds: id `"-1"`, delay 5s. -/
def testTask : Tasker :=
  { self := { Id := TaskId.str "-1", Delay := 5000000000, Options := "options -1" },
    Register := [] }

end delaytask

namespace limiter

/-! ## Arithmetic of the machine model -/

theorem wrapInt_of_inRange (x : Int) (h1 : minInt ≤ x) (h2 : x ≤ maxInt) :
    wrapInt x = x := by
  unfold wrapInt
  unfold minInt at h1
  unfold maxInt at h2
  omega

theorem Sub_eq_of_representable (t u : Int) (h1 : minDuration ≤ t - u)
    (h2 : t - u ≤ maxDuration) : Sub t u = t - u := by
  simp only [Sub, minDuration, maxDuration] at *
  split_ifs <;> omega

theorem le_Sub_iff (t u : Int) (c : Int) (hc : c ≤ maxDuration)
    (hd : minDuration ≤ t - u) : c ≤ Sub t u ↔ c ≤ t - u := by
  simp only [Sub, minDuration, maxDuration] at *
  split_ifs <;> omega

/-! ## Frame and invariant lemmas -/

theorem Allow_rate (l : Counter) (now : Int) : (l.Allow now).2.rate = l.rate := by
  unfold Counter.Allow Counter.Reset
  split_ifs <;> rfl

theorem Allow_cycle (l : Counter) (now : Int) : (l.Allow now).2.cycle = l.cycle := by
  unfold Counter.Allow Counter.Reset
  split_ifs <;> rfl

theorem after_rate (ts : List Int) : ∀ l : Counter, (l.after ts).rate = l.rate := by
  induction ts with
  | nil => intro l; rfl
  | cons t ts ih => intro l; simp [Counter.after, ih, Allow_rate]

theorem after_cycle (ts : List Int) : ∀ l : Counter, (l.after ts).cycle = l.cycle := by
  induction ts with
  | nil => intro l; rfl
  | cons t ts ih => intro l; simp [Counter.after, ih, Allow_cycle]

/-- A denial is the branch `count == rate-1` with the window not yet over. -/
theorem Allow_false_iff (l : Counter) (now : Int) :
    (l.Allow now).1 = false ↔
      l.count = wrapInt (l.rate - 1) ∧ Sub now l.begin < l.cycle := by
  unfold Counter.Allow
  split_ifs with h1 h2
  · simp [h1]; omega
  · simp [h1]; omega
  · simp [h1]

/-- A denial leaves the counter as it was. -/
theorem Allow_false_state (l : Counter) (now : Int) (h : (l.Allow now).1 = false) :
    (l.Allow now).2 = l := by
  obtain ⟨h1, h2⟩ := (Allow_false_iff l now).mp h
  simp [Counter.Allow, h1, not_le.mpr h2]

/-- On a bounded counter no arithmetic of `Allow` wraps around. -/
theorem Allow_of_bounded (l : Counter) (now : Int) (hb : l.Bounded) :
    l.Allow now =
      if l.count = l.rate - 1 then
        if l.cycle ≤ Sub now l.begin then (true, l.Reset now) else (false, l)
      else (true, { l with count := l.count + 1 }) := by
  obtain ⟨h1, h2, h3, h4⟩ := hb
  have hw : wrapInt (l.rate - 1) = l.rate - 1 :=
    wrapInt_of_inRange _ (by unfold minInt; omega) (by omega)
  unfold Counter.Allow
  rw [hw]
  by_cases hc : l.count = l.rate - 1
  · simp [hc]
  · have hw2 : wrapInt (l.count + 1) = l.count + 1 :=
      wrapInt_of_inRange _ (by unfold minInt; omega) (by omega)
    simp [hc, hw2]

theorem Set_bounded (l0 : Counter) (rate w t0 : Int) (h1 : 1 ≤ rate)
    (h2 : rate ≤ maxInt) : (l0.Set rate w t0).Bounded := by
  refine ⟨h1, h2, ?_, ?_⟩
  · simp [Counter.Set]
  · simp [Counter.Set]; omega

theorem Allow_bounded (l : Counter) (now : Int) (hb : l.Bounded) :
    (l.Allow now).2.Bounded := by
  rw [Allow_of_bounded l now hb]
  obtain ⟨h1, h2, h3, h4⟩ := hb
  unfold Counter.Bounded Counter.Reset
  split_ifs <;> simp <;> omega

theorem after_bounded (ts : List Int) :
    ∀ l : Counter, l.Bounded → (l.after ts).Bounded := by
  induction ts with
  | nil => intro l hb; exact hb
  | cons t ts ih => intro l hb; exact ih _ (Allow_bounded l t hb)

/-! ## Counting admissions -/

theorem admittedBefore_cons (l : Counter) (D t : Int) (ts : List Int) :
    l.admittedBefore D (t :: ts) =
      (if (l.Allow t).1 = true ∧ t < D then 1 else 0) +
        (l.Allow t).2.admittedBefore D ts := by
  unfold Counter.admittedBefore
  simp only [Counter.outcomes, List.filter_cons]
  split_ifs with h1 h2 h2
  · simp [Nat.add_comm]
  · simp at h1; exact absurd h1 (by simpa using h2)
  · simp at h1; exact absurd (by simpa using h2) (by simpa using h1)
  · simp

/-- No call made at or after the deadline is counted. -/
theorem admittedBefore_eq_zero (ts : List Int) (D : Int) :
    ∀ l : Counter, (∀ t ∈ ts, D ≤ t) → l.admittedBefore D ts = 0 := by
  induction ts with
  | nil => intro l _; rfl
  | cons t ts ih =>
    intro l h
    rw [admittedBefore_cons, ih _ (fun u hu => h u (List.mem_cons_of_mem _ hu))]
    have : ¬ t < D := not_lt.mpr (h t (List.mem_cons_self _ _))
    simp [this]

/-- From a bounded state whose window ends no earlier than the deadline, the
calls admitted before the deadline fit in what is left of the budget. -/
theorem admittedBefore_add_count_le (ts : List Int) (D : Int) :
    ∀ l : Counter, l.Bounded → D ≤ l.begin + l.cycle → (∀ t ∈ ts, l.begin ≤ t) →
      ts.Pairwise (· ≤ ·) → (l.admittedBefore D ts : Int) + l.count ≤ l.rate - 1 := by
  induction ts with
  | nil =>
    intro l hb _ _ _
    obtain ⟨h1, h2, h3, h4⟩ := hb
    simp [Counter.admittedBefore, Counter.outcomes]
    omega
  | cons t ts ih =>
    intro l hb hD hge hs
    have hb2 := Allow_bounded l t hb
    have htl : l.begin ≤ t := hge t (List.mem_cons_self _ _)
    have hrest : ∀ u ∈ ts, t ≤ u := (List.pairwise_cons.mp hs).1
    have hs2 : ts.Pairwise (· ≤ ·) := (List.pairwise_cons.mp hs).2
    rw [admittedBefore_cons]
    rw [Allow_of_bounded l t hb] at hb2 ⊢
    obtain ⟨h1, h2, h3, h4⟩ := hb
    by_cases hc : l.count = l.rate - 1
    · by_cases he : l.cycle ≤ Sub t l.begin
      · have hsub : Sub t l.begin ≤ t - l.begin := by
          simp only [Sub, minDuration, maxDuration]
          split_ifs <;> omega
        have hDt : D ≤ t := by omega
        simp only [hc, he, if_true] at hb2 ⊢
        rw [admittedBefore_eq_zero ts D _ (fun u hu => le_trans hDt (hrest u hu))]
        have : ¬ t < D := not_lt.mpr hDt
        simp [this]
      · simp only [hc, he, if_true, if_false] at hb2 ⊢
        have := ih l hb2 hD (fun u hu => le_trans htl (hrest u hu)) hs2
        simp
        omega
    · simp only [hc, if_false] at hb2 ⊢
      have := ih _ hb2 (by simpa using hD)
        (fun u hu => by simpa using le_trans htl (hrest u hu)) hs2
      simp only [] at this
      split_ifs <;> push_cast <;> omega

/-! ## The decision rule -/

/-- C1, the claim fails in part (b): on the counter with `rate = 1`,
`cycle` the smallest `Duration`, `count = 0` and a `begin` more than `2^63`
nanoseconds after `now`, the difference `now - begin` is below `cycle`, yet
`now.Sub(begin)` saturates at the smallest `Duration`, which is not below
`cycle`, and `Allow` returns true. -/
theorem Allow_below_minDuration_admits :
    (Counter.mk 1 81529025673709551614 (-9223372036854775808) 0).InRange ∧
      (0 : Int) ≤ 1 - 1 ∧ (0 : Int) = 1 - 1 ∧
      (63082281600000000000 : Int) - 81529025673709551614 < -9223372036854775808 ∧
      ((Counter.mk 1 81529025673709551614 (-9223372036854775808) 0).Allow
        63082281600000000000).1 = true := by
  decide

/-- C1 as amended: for every counter state with 64-bit fields and
`count <= rate-1` and every call time `now`: (a) when `count == rate-1` and
`now - begin >= cycle`, `Allow` returns true and leaves `begin = now` and
`count = 0`; (b) when `count == rate-1` and `now - begin < cycle`, `Allow`
returns false, provided `cycle` is above the smallest `Duration` or
`now - begin` is not below the smallest `Duration`; when both fail, so
`cycle` is the smallest `Duration` and `now - begin` is below it, `Allow`
returns true and leaves `begin = now` and `count = 0`; (c) when
`count < rate-1`, `Allow` returns true, adds exactly 1 to `count` and keeps
`begin`. In all cases `rate` and `cycle` are unchanged. -/
theorem Allow_decision_rule (l : Counter) (now : Int) (hr : l.InRange)
    (h : l.count ≤ l.rate - 1) :
    (l.count = l.rate - 1 → l.cycle ≤ now - l.begin →
        (l.Allow now).1 = true ∧ (l.Allow now).2.begin = now ∧
          (l.Allow now).2.count = 0) ∧
    (l.count = l.rate - 1 → now - l.begin < l.cycle →
        (minDuration < l.cycle ∨ minDuration ≤ now - l.begin) →
        (l.Allow now).1 = false) ∧
    (l.count = l.rate - 1 → l.cycle = minDuration → now - l.begin < minDuration →
        (l.Allow now).1 = true ∧ (l.Allow now).2.begin = now ∧
          (l.Allow now).2.count = 0) ∧
    (l.count < l.rate - 1 →
        (l.Allow now).1 = true ∧ (l.Allow now).2.count = l.count + 1 ∧
          (l.Allow now).2.begin = l.begin) ∧
    (l.Allow now).2.rate = l.rate ∧ (l.Allow now).2.cycle = l.cycle := by
  obtain ⟨⟨hr1, hr2⟩, ⟨hy1, hy2⟩, hc1, hc2⟩ := hr
  have hw : wrapInt (l.rate - 1) = l.rate - 1 :=
    wrapInt_of_inRange _ (by omega) (by omega)
  refine ⟨?_, ?_, ?_, ?_, ?_, ?_⟩
  · intro h1 h2
    have h3 : l.cycle ≤ Sub now l.begin := by
      simp only [Sub, minDuration, maxDuration] at hy1 hy2 ⊢
      split_ifs <;> omega
    simp [Counter.Allow, Counter.Reset, hw, h1, h3]
  · intro h1 h2 h3
    have h4 : Sub now l.begin < l.cycle := by
      simp only [Sub, minDuration, maxDuration] at hy1 hy2 h3 ⊢
      split_ifs <;> omega
    simp [Counter.Allow, hw, h1, not_le.mpr h4]
  · intro h1 h2 h3
    have h4 : l.cycle ≤ Sub now l.begin := by
      simp only [Sub, minDuration, maxDuration] at h2 h3 ⊢
      split_ifs <;> omega
    simp [Counter.Allow, Counter.Reset, hw, h1, h4]
  · intro h1
    have hne : l.count ≠ l.rate - 1 := by omega
    have hw2 : wrapInt (l.count + 1) = l.count + 1 :=
      wrapInt_of_inRange _ (by omega) (by omega)
    simp [Counter.Allow, hw, hne, hw2]
  · unfold Counter.Allow Counter.Reset
    split_ifs <;> rfl
  · unfold Counter.Allow Counter.Reset
    split_ifs <;> rfl

theorem Allow_decision_rule_witness :
    (Counter.mk 3 0 1000000000 2).InRange ∧ (2 : Int) ≤ 3 - 1 ∧
      ((2 : Int) = 3 - 1 ∧ (1000000000 : Int) ≤ 1000000000 - 0 ∧
        ((Counter.mk 3 0 1000000000 2).Allow 1000000000).1 = true ∧
        ((Counter.mk 3 0 1000000000 2).Allow 1000000000).2.begin = 1000000000 ∧
        ((Counter.mk 3 0 1000000000 2).Allow 1000000000).2.count = 0) ∧
      ((5 : Int) - 0 < 1000000000 ∧ minDuration < 1000000000 ∧
        ((Counter.mk 3 0 1000000000 2).Allow 5).1 = false) :=
  ⟨by decide, by decide,
    ⟨by decide, by decide,
      (Allow_decision_rule (Counter.mk 3 0 1000000000 2) 1000000000 (by decide)
        (by decide)).1 (by decide) (by decide)⟩,
    ⟨by decide, by decide,
      (Allow_decision_rule (Counter.mk 3 0 1000000000 2) 5 (by decide)
        (by decide)).2.1 (by decide) (by decide) (Or.inl (by decide))⟩⟩

/-- The run of `TestCounter`: `Set(3, time.Second)`, then ten calls of `Allow`
200ms apart. The calls at 0ms and 200ms are admitted, those at 400ms, 600ms and
800ms denied, the call at 1s rolls the window, and two more are admitted. -/
theorem TestCounter_outcomes :
    ((Counter.zero.Set 3 1000000000 0).outcomes
        [0, 200000000, 400000000, 600000000, 800000000, 1000000000, 1200000000,
          1400000000, 1600000000, 1800000000]).map Prod.snd =
      [true, true, false, false, false, true, true, true, false, false] := by
  decide

/-! ## Admissions per window -/

/-- C2: for every `rate >= 1` (a 64-bit value), every window length `w` and
every sequence of `Allow` calls made at non-decreasing times after
`Set(rate, w)` at `t0`: the calls admitted before `t0 + w` are at most `rate`,
and for every call that rolls the window, at a time `t`, the calls admitted
before `t + w` from that call onward, the rolling call included, are at most
`rate`. -/
theorem admitted_per_window_le_rate (l0 : Counter) (rate w t0 : Int)
    (ts : List Int) (h1 : 1 ≤ rate) (h2 : rate ≤ maxInt)
    (hs : (t0 :: ts).Pairwise (· ≤ ·)) :
    ((l0.Set rate w t0).admittedBefore (t0 + w) ts : Int) ≤ rate ∧
    ∀ (pre : List Int) (t : Int) (post : List Int), ts = pre ++ t :: post →
      ((l0.Set rate w t0).after pre).rolls t = true →
      ((((l0.Set rate w t0).after pre).admittedBefore (t + w) (t :: post) : Nat) : Int)
        ≤ rate := by
  have hb := Set_bounded l0 rate w t0 h1 h2
  have hts : ts.Pairwise (· ≤ ·) := (List.pairwise_cons.mp hs).2
  constructor
  · have := admittedBefore_add_count_le ts (t0 + w) (l0.Set rate w t0) hb
      (by simp [Counter.Set]) (by simpa [Counter.Set] using (List.pairwise_cons.mp hs).1) hts
    simp only [Counter.Set] at this ⊢
    omega
  · intro pre t post hsplit hroll
    subst hsplit
    have hpost : (t :: post).Pairwise (· ≤ ·) := (List.pairwise_append.mp hts).2.1
    have hbs := after_bounded pre _ hb
    have hrate : ((l0.Set rate w t0).after pre).rate = rate := by
      rw [after_rate]; rfl
    have hcyc : ((l0.Set rate w t0).after pre).cycle = w := by
      rw [after_cycle]; rfl
    generalize (l0.Set rate w t0).after pre = s at hbs hrate hcyc hroll ⊢
    have hw : wrapInt (s.rate - 1) = s.rate - 1 :=
      wrapInt_of_inRange _ (by unfold minInt; have := hbs.1; omega) (by have := hbs.2.1; omega)
    simp only [Counter.rolls, hw, Bool.and_eq_true, decide_eq_true_eq, ge_iff_le] at hroll
    have hAllow : s.Allow t = (true, s.Reset t) := by
      rw [Allow_of_bounded s t hbs]
      simp [hroll.1, hroll.2]
    have hb3 : (s.Reset t).Bounded := by
      have := Allow_bounded s t hbs
      rwa [hAllow] at this
    rw [admittedBefore_cons, hAllow]
    have := admittedBefore_add_count_le post (t + w) (s.Reset t) hb3
      (by simp [Counter.Reset, hcyc]) (by simpa [Counter.Reset] using (List.pairwise_cons.mp hpost).1)
      (List.pairwise_cons.mp hpost).2
    simp only [Counter.Reset] at this ⊢
    split_ifs <;> push_cast <;> omega

theorem admitted_per_window_le_rate_witness :
    (1 : Int) ≤ 3 ∧ (3 : Int) ≤ maxInt ∧
      ([0, 1, 2, 3, 10, 11, 12, 13] : List Int).Pairwise (· ≤ ·) ∧
      ((Counter.zero.Set 3 10 0).admittedBefore (0 + 10) [1, 2, 3, 10, 11, 12, 13] : Int) ≤ 3 ∧
      ((((Counter.zero.Set 3 10 0).after [1, 2, 3]).admittedBefore (10 + 10)
        [10, 11, 12, 13] : Nat) : Int) ≤ 3 :=
  ⟨by decide, by decide, by decide,
    (admitted_per_window_le_rate Counter.zero 3 10 0 [1, 2, 3, 10, 11, 12, 13]
      (by decide) (by decide) (by decide)).1,
    (admitted_per_window_le_rate Counter.zero 3 10 0 [1, 2, 3, 10, 11, 12, 13]
      (by decide) (by decide) (by decide)).2 [1, 2, 3] 10 [11, 12, 13] rfl (by decide)⟩

/-! ## The first window after `Set` -/

/-- While the budget lasts every call is admitted, whatever its time. -/
theorem outcomes_true_of_budget (ts : List Int) :
    ∀ l : Counter, l.Bounded → l.count + ts.length ≤ l.rate - 1 →
      (∀ p ∈ l.outcomes ts, p.2 = true) ∧ (l.after ts).count = l.count + ts.length ∧
        (l.after ts).begin = l.begin := by
  induction ts with
  | nil => intro l _ _; simp [Counter.outcomes, Counter.after]
  | cons t ts ih =>
    intro l hb hlen
    have hb2 := Allow_bounded l t hb
    have hA := Allow_of_bounded l t hb
    simp only [List.length_cons, Nat.cast_add, Nat.cast_one] at hlen
    have hc : l.count ≠ l.rate - 1 := by omega
    simp only [hc, if_false] at hA
    have := ih (l.Allow t).2 hb2 (by rw [Allow_rate, hA]; dsimp only; omega)
    rw [hA] at this
    dsimp only at this
    simp only [Counter.outcomes, Counter.after, hA, List.mem_cons, List.length_cons,
      Nat.cast_add, Nat.cast_one]
    refine ⟨?_, ?_, ?_⟩
    · rintro p (rfl | hp)
      · rfl
      · exact this.1 p hp
    · rw [this.2.1]; omega
    · rw [this.2.2]

/-- C3, the claim fails: after `Set(3, 1s)` at time 0, three calls made within
the first second return true, true, false: the third call, the `rate`-th, is
denied. -/
theorem first_window_third_call_denied :
    (1 : Int) ≤ 3 ∧ (0 : Int) < 1000000000 ∧
      (∀ t ∈ ([1, 2, 3] : List Int), t < 0 + 1000000000) ∧
      (Counter.zero.Set 3 1000000000 0).outcomes [1, 2, 3] =
        [(1, true), (2, true), (3, false)] := by
  decide

/-- C3 as amended: for every `rate >= 1` (a 64-bit value) and window length
`w > 0`, after `Set(rate, w)` at `t0` the first `rate - 1` calls of `Allow`
all return true, and the next call, made before `t0 + w`, returns false. -/
theorem first_window_admits_rate_minus_one (l0 : Counter) (rate w t0 : Int)
    (ts : List Int) (now : Int) (h1 : 1 ≤ rate) (h2 : rate ≤ maxInt) (hw : 0 < w)
    (hlen : (ts.length : Int) = rate - 1) (hnow : now < t0 + w) :
    (∀ p ∈ (l0.Set rate w t0).outcomes ts, p.2 = true) ∧
      (((l0.Set rate w t0).after ts).Allow now).1 = false := by
  have hb := Set_bounded l0 rate w t0 h1 h2
  obtain ⟨ha, hcount, hbegin⟩ := outcomes_true_of_budget ts (l0.Set rate w t0) hb
    (by simp [Counter.Set]; omega)
  refine ⟨ha, ?_⟩
  have hrate : ((l0.Set rate w t0).after ts).rate = rate := by
    rw [after_rate]; rfl
  have hcyc : ((l0.Set rate w t0).after ts).cycle = w := by
    rw [after_cycle]; rfl
  have hbs := after_bounded ts _ hb
  have hcount2 : ((l0.Set rate w t0).after ts).count = rate - 1 := by
    rw [hcount]; simp [Counter.Set]; omega
  have hbegin2 : ((l0.Set rate w t0).after ts).begin = t0 := by
    rw [hbegin]; rfl
  generalize (l0.Set rate w t0).after ts = s at hbs hrate hcyc hcount2 hbegin2 ⊢
  rw [Allow_of_bounded s now hbs]
  have hc : s.count = s.rate - 1 := by omega
  have hlt : ¬ s.cycle ≤ Sub now s.begin := by
    rw [hcyc, hbegin2]
    simp only [Sub, minDuration, maxDuration]
    split_ifs <;> omega
  simp [hc, hlt]

theorem first_window_admits_rate_minus_one_witness :
    (1 : Int) ≤ 3 ∧ (3 : Int) ≤ maxInt ∧ (0 : Int) < 1000000000 ∧
      ((([1, 2] : List Int).length : Nat) : Int) = 3 - 1 ∧ (3 : Int) < 0 + 1000000000 ∧
      (∀ p ∈ (Counter.zero.Set 3 1000000000 0).outcomes [1, 2], p.2 = true) ∧
      (((Counter.zero.Set 3 1000000000 0).after [1, 2]).Allow 3).1 = false :=
  ⟨by decide, by decide, by decide, by decide, by decide,
    first_window_admits_rate_minus_one Counter.zero 3 1000000000 0 [1, 2] 3
      (by decide) (by decide) (by decide) (by decide) (by decide)⟩

/-! ## Denial and recovery -/

/-- C4: if a call of `Allow` returned false, the next call of `Allow`, made at
any time `now` with `now - begin >= cycle`, returns true and leaves
`begin = now` and `count = 0`. It holds of every counter whose `cycle` is a
`Duration`, so of every one that `Set(rate, w)` configured. -/
theorem recovery_after_saturation (l : Counter) (t1 now : Int)
    (hc : l.cycle ≤ maxDuration) (hd : (l.Allow t1).1 = false)
    (he : (l.Allow t1).2.cycle ≤ now - (l.Allow t1).2.begin) :
    ((l.Allow t1).2.Allow now).1 = true ∧
      ((l.Allow t1).2.Allow now).2.begin = now ∧
      ((l.Allow t1).2.Allow now).2.count = 0 ∧
      ((l.Allow t1).2.Allow now).2.rate = l.rate ∧
      ((l.Allow t1).2.Allow now).2.cycle = l.cycle := by
  rw [Allow_false_state l t1 hd] at he ⊢
  obtain ⟨h1, -⟩ := (Allow_false_iff l t1).mp hd
  have h2 : l.cycle ≤ Sub now l.begin := by
    simp only [Sub, minDuration, maxDuration] at hc ⊢
    split_ifs <;> omega
  simp [Counter.Allow, Counter.Reset, h1, h2]

theorem recovery_after_saturation_witness :
    (1000000000 : Int) ≤ maxDuration ∧
      ((Counter.mk 3 0 1000000000 2).Allow 5).1 = false ∧
      (((Counter.mk 3 0 1000000000 2).Allow 5).2.Allow 1000000000).1 = true ∧
      (((Counter.mk 3 0 1000000000 2).Allow 5).2.Allow 1000000000).2.begin = 1000000000 ∧
      (((Counter.mk 3 0 1000000000 2).Allow 5).2.Allow 1000000000).2.count = 0 :=
  ⟨by decide, by decide,
    (recovery_after_saturation (Counter.mk 3 0 1000000000 2) 5 1000000000
      (by decide) (by decide) (by decide)).1,
    (recovery_after_saturation (Counter.mk 3 0 1000000000 2) 5 1000000000
      (by decide) (by decide) (by decide)).2.1,
    (recovery_after_saturation (Counter.mk 3 0 1000000000 2) 5 1000000000
      (by decide) (by decide) (by decide)).2.2.1⟩

/-- C5: for every `rate >= 1` (a 64-bit value) and window length `w`, in every
state reached from `Set(rate, w)` by calls of `Allow` at any times,
`0 <= count <= rate`. -/
theorem count_between_zero_and_rate (l0 : Counter) (rate w t0 : Int)
    (ts : List Int) (h1 : 1 ≤ rate) (h2 : rate ≤ maxInt) :
    0 ≤ ((l0.Set rate w t0).after ts).count ∧
      ((l0.Set rate w t0).after ts).count ≤ rate := by
  have hb := after_bounded ts _ (Set_bounded l0 rate w t0 h1 h2)
  have hrate : ((l0.Set rate w t0).after ts).rate = rate := by
    rw [after_rate]; rfl
  obtain ⟨-, -, h3, h4⟩ := hb
  constructor
  · exact h3
  · omega

theorem count_between_zero_and_rate_witness :
    (1 : Int) ≤ 3 ∧ (3 : Int) ≤ maxInt ∧
      0 ≤ ((Counter.zero.Set 3 10 0).after [1, 2, 3, 10, 11]).count ∧
      ((Counter.zero.Set 3 10 0).after [1, 2, 3, 10, 11]).count ≤ 3 :=
  ⟨by decide, by decide,
    count_between_zero_and_rate Counter.zero 3 10 0 [1, 2, 3, 10, 11]
      (by decide) (by decide)⟩

/-- C6: whenever `Allow` returns false, the counter after the call equals the
counter before it, in `rate`, `begin`, `cycle` and `count`, and a second call
of `Allow` at the same time returns false too. -/
theorem denial_idempotent (l : Counter) (now : Int)
    (h : (l.Allow now).1 = false) :
    (l.Allow now).2 = l ∧ ((l.Allow now).2.Allow now).1 = false := by
  have hs := Allow_false_state l now h
  refine ⟨hs, ?_⟩
  rw [hs]
  exact h

theorem denial_idempotent_witness :
    ((Counter.mk 3 0 1000000000 2).Allow 5).1 = false ∧
      ((Counter.mk 3 0 1000000000 2).Allow 5).2 = Counter.mk 3 0 1000000000 2 ∧
      (((Counter.mk 3 0 1000000000 2).Allow 5).2.Allow 5).1 = false :=
  ⟨by decide, denial_idempotent (Counter.mk 3 0 1000000000 2) 5 (by decide)⟩

/-! ## Configuration -/

/-- C7, the claim fails: `Set(0, 0)` at time 5 on a counter configured with
`rate = 3`, `cycle = 1s` and holding `count = 2` overwrites all four fields. -/
theorem Set_nonpositive_overwrites :
    (Counter.mk 3 0 1000000000 2).Set 0 0 5 = Counter.mk 0 5 0 0 ∧
      (Counter.mk 3 0 1000000000 2).Set 0 0 5 ≠ Counter.mk 3 0 1000000000 2 := by
  decide

/-- C7 as amended: `Set` validates nothing and has no error result: for every
`r` and every `cycle`, the non-positive ones included, it stores `rate = r`,
`begin = now`, `cycle = cycle` and `count = 0`. -/
theorem Set_stores_arguments (l : Counter) (r cycle now : Int) :
    l.Set r cycle now = { rate := r, begin := now, cycle := cycle, count := 0 } := by
  rfl

/-! ## The unconfigured counter -/

/-- With `rate = 0` the comparison `count == rate-1` asks for `count = -1`,
which counting up from 0 meets only after the 64-bit count has wrapped. -/
theorem outcomes_true_of_rate_zero (ts : List Int) :
    ∀ (l : Counter) (k : Nat), l.rate = 0 → l.count = wrapInt k →
      k + ts.length < 18446744073709551615 →
      (∀ p ∈ l.outcomes ts, p.2 = true) ∧ (l.after ts).rate = 0 ∧
        (l.after ts).count = wrapInt (k + ts.length : Nat) := by
  induction ts with
  | nil => intro l k hr hk _; simp [Counter.outcomes, Counter.after, hr, hk]
  | cons t ts ih =>
    intro l k hr hk hlen
    simp only [List.length_cons] at hlen
    have hne : l.count ≠ wrapInt (l.rate - 1) := by
      rw [hr, hk]
      unfold wrapInt
      omega
    have hA : l.Allow t = (true, { l with count := wrapInt (l.count + 1) }) := by
      simp [Counter.Allow, hne]
    have hk2 : wrapInt (l.count + 1) = wrapInt ((k + 1 : Nat) : Int) := by
      rw [hk]
      unfold wrapInt
      push_cast
      omega
    have := ih (l.Allow t).2 (k + 1) (by rw [Allow_rate, hr]) (by rw [hA]; exact hk2)
      (by omega)
    simp only [Counter.outcomes, Counter.after, List.mem_cons, List.length_cons]
    refine ⟨?_, this.2.1, ?_⟩
    · rintro p (rfl | hp)
      · rw [hA]
      · exact this.1 p hp
    · rw [this.2.2]
      congr 2
      omega

/-- C8, the claim fails: the first call of `Allow` on the zero value of
`Counter` returns true. -/
theorem unconfigured_first_call_admitted :
    (Counter.zero.Allow 0).1 = true ∧ (Counter.zero.Allow 0).2.count = 1 := by
  decide

/-- C8 as amended: the zero value of `Counter` admits: every call of `Allow`
on it, at every time, after any number of earlier calls of `Allow` below
`2^64 - 1`, returns true and only adds 1 to `count`. -/
theorem unconfigured_admits (ts : List Int) (now : Int)
    (hlen : ts.length < 18446744073709551615) :
    ((Counter.zero.after ts).Allow now).1 = true ∧
      ((Counter.zero.after ts).Allow now).2 =
        { Counter.zero.after ts with
          count := wrapInt ((Counter.zero.after ts).count + 1) } := by
  obtain ⟨-, hr, hk⟩ := outcomes_true_of_rate_zero ts Counter.zero 0 rfl (by decide)
    (by omega)
  have hne : (Counter.zero.after ts).count ≠ wrapInt ((Counter.zero.after ts).rate - 1) := by
    rw [hr, hk]
    unfold wrapInt
    push_cast
    omega
  simp [Counter.Allow, hne]

theorem unconfigured_admits_witness :
    ([5, 5, 7] : List Int).length < 18446744073709551615 ∧
      ((Counter.zero.after [5, 5, 7]).Allow 7).1 = true :=
  ⟨by decide, (unconfigured_admits [5, 5, 7] 7 (by decide)).1⟩

/-! ## Lazy re-arm -/

/-- C9: for every `rate >= 1` (a 64-bit value), in every state reached from
`Set` by calls of `Allow`, a call of `Allow` changes `begin` only when it is
entered with `count == rate-1` and `now.Sub(begin) >= cycle`, which for a call
made no earlier than `begin` is `now - begin >= cycle`; and a call entered with
`count < rate-1` keeps `begin`, adds 1 to `count` and returns true, also when
the window is over. -/
theorem lazy_rearm (l0 : Counter) (rate w t0 : Int) (ts : List Int) (now : Int)
    (h1 : 1 ≤ rate) (h2 : rate ≤ maxInt) :
    ((((l0.Set rate w t0).after ts).Allow now).2.begin ≠ ((l0.Set rate w t0).after ts).begin →
        ((l0.Set rate w t0).after ts).count = rate - 1 ∧
        w ≤ Sub now ((l0.Set rate w t0).after ts).begin ∧
        (((l0.Set rate w t0).after ts).begin ≤ now →
          w ≤ now - ((l0.Set rate w t0).after ts).begin)) ∧
    (((l0.Set rate w t0).after ts).count < rate - 1 →
        (((l0.Set rate w t0).after ts).Allow now).1 = true ∧
        (((l0.Set rate w t0).after ts).Allow now).2.begin =
          ((l0.Set rate w t0).after ts).begin ∧
        (((l0.Set rate w t0).after ts).Allow now).2.count =
          ((l0.Set rate w t0).after ts).count + 1) := by
  have hbs := after_bounded ts _ (Set_bounded l0 rate w t0 h1 h2)
  have hrate : ((l0.Set rate w t0).after ts).rate = rate := by
    rw [after_rate]; rfl
  have hcyc : ((l0.Set rate w t0).after ts).cycle = w := by
    rw [after_cycle]; rfl
  generalize (l0.Set rate w t0).after ts = s at hbs hrate hcyc ⊢
  rw [Allow_of_bounded s now hbs]
  constructor
  · intro hchg
    by_cases hc : s.count = s.rate - 1
    · by_cases he : s.cycle ≤ Sub now s.begin
      · refine ⟨by omega, by omega, ?_⟩
        intro hle
        have hsub : Sub now s.begin ≤ now - s.begin := by
          simp only [Sub, minDuration, maxDuration]
          split_ifs <;> omega
        omega
      · simp [hc, he] at hchg
    · simp [hc] at hchg
  · intro hlt
    have hc : s.count ≠ s.rate - 1 := by omega
    simp [hc]

theorem lazy_rearm_witness :
    (1 : Int) ≤ 3 ∧ (3 : Int) ≤ maxInt ∧
      ((Counter.zero.Set 3 10 0).after [1]).count < 3 - 1 ∧
      (10 : Int) ≤ 25 - ((Counter.zero.Set 3 10 0).after [1]).begin ∧
      (((Counter.zero.Set 3 10 0).after [1]).Allow 25).1 = true ∧
      (((Counter.zero.Set 3 10 0).after [1]).Allow 25).2.begin =
        ((Counter.zero.Set 3 10 0).after [1]).begin ∧
      (((Counter.zero.Set 3 10 0).after [1]).Allow 25).2.count =
        ((Counter.zero.Set 3 10 0).after [1]).count + 1 :=
  ⟨by decide, by decide, by decide, by decide,
    (lazy_rearm Counter.zero 3 10 0 [1] 25 (by decide) (by decide)).2 (by decide)⟩

end limiter

/-! # In-memory cache: permanent entries -/

namespace cache

/-! ## The map held as a list -/

theorem mapIndex_eq_head (name : String) (items : List (String × MemoryItem)) :
    mapIndex name items = ((entriesOf name items).head?).map Prod.snd := by
  induction items with
  | nil => rfl
  | cons p ps ih =>
    by_cases h : p.1 = name
    · simp [mapIndex, entriesOf, List.filter_cons, h]
    · simp only [mapIndex, entriesOf, List.filter_cons, h, if_false, decide_False]
      simpa [entriesOf] using ih

theorem entriesOf_mapDelete_ne (name n : String) (h : n ≠ name)
    (items : List (String × MemoryItem)) :
    entriesOf name (mapDelete n items) = entriesOf name items := by
  simp only [entriesOf, mapDelete, List.filter_filter]
  apply List.filter_congr
  intro p _
  by_cases h2 : p.1 = name
  · have h1 : ¬ name = n := fun e => h e.symm
    simp [h2, h1]
  · simp [h2]

theorem entriesOf_mapDelete_self (name : String) (items : List (String × MemoryItem)) :
    entriesOf name (mapDelete name items) = [] := by
  simp only [entriesOf, mapDelete, List.filter_filter]
  rw [List.filter_eq_nil_iff]
  intro p _
  by_cases h : p.1 = name <;> simp [h]

theorem entriesOf_mapAssign_ne (name n : String) (h : n ≠ name) (item : MemoryItem)
    (items : List (String × MemoryItem)) :
    entriesOf name (mapAssign n item items) = entriesOf name items := by
  have := entriesOf_mapDelete_ne name n h items
  simp only [mapAssign, entriesOf, List.filter_cons, h, decide_False] at this ⊢
  simpa using this

theorem entriesOf_mapAssign_self (name : String) (item : MemoryItem)
    (items : List (String × MemoryItem)) :
    entriesOf name (mapAssign name item items) = [(name, item)] := by
  have := entriesOf_mapDelete_self name items
  simp only [mapAssign, entriesOf, List.filter_cons, decide_True, if_true] at this ⊢
  rw [this]

theorem entriesOf_setVal_ne (name key : String) (h : key ≠ name) (v : Value)
    (items : List (String × MemoryItem)) :
    entriesOf name (setVal key v items) = entriesOf name items := by
  induction items with
  | nil => rfl
  | cons p ps ih =>
    by_cases h1 : p.1 = key
    · have h2 : p.1 ≠ name := by rw [h1]; exact h
      simp [setVal, entriesOf, List.filter_cons, h1, h2, h]
    · simp only [setVal, h1, if_false]
      simp only [entriesOf, List.filter_cons] at ih ⊢
      rw [ih]

theorem entriesOf_setVal_self (name : String) (v : Value)
    (items : List (String × MemoryItem)) (item : MemoryItem)
    (h : entriesOf name items = [(name, item)]) :
    entriesOf name (setVal name v items) = [(name, { item with val := v })] := by
  induction items with
  | nil => simp [entriesOf] at h
  | cons p ps ih =>
    by_cases h1 : p.1 = name
    · simp only [entriesOf, List.filter_cons, h1, decide_True, if_true, List.cons.injEq] at h
      obtain ⟨hp, hps⟩ := h
      subst hp
      simp [setVal, entriesOf, List.filter_cons, hps]
    · simp only [entriesOf, List.filter_cons, h1, decide_False] at h
      simp only [setVal, h1, if_false, entriesOf, List.filter_cons, decide_False]
      simpa [entriesOf] using ih (by simpa [entriesOf] using h)

theorem entriesOf_clearItems (name : String) (keys : List String) (h : name ∉ keys) :
    ∀ items : List (String × MemoryItem),
      entriesOf name (keys.foldl (fun items key => mapDelete key items) items) =
        entriesOf name items := by
  induction keys with
  | nil => intro items; rfl
  | cons k ks ih =>
    intro items
    have hk : k ≠ name := fun e => h (by simp [e])
    have hks : name ∉ ks := fun e => h (List.mem_cons_of_mem _ e)
    simp only [List.foldl_cons]
    rw [ih hks, entriesOf_mapDelete_ne name k hk]

/-- A key whose entries all have `ttr = 0` is not among the expired keys. -/
theorem not_mem_expiredKeys (bc : MemoryCache) (name : String) (clock : String → Int)
    (h : ∀ p ∈ entriesOf name bc.items, p.2.ttr = 0) :
    name ∉ bc.expiredKeys clock := by
  intro hm
  simp only [MemoryCache.expiredKeys, List.mem_map, List.mem_filter] at hm
  obtain ⟨p, ⟨hp, he⟩, hn⟩ := hm
  have := h p (by simp [entriesOf, List.mem_filter, hp, hn])
  simp [MemoryItem.isExpire, this] at he

theorem Incr_items (bc : MemoryCache) (key : String) :
    (bc.Incr key).2.items = bc.items ∨
      ∃ v, (bc.Incr key).2.items = setVal key v bc.items := by
  unfold MemoryCache.Incr
  split
  · exact Or.inl rfl
  · split <;> first | exact Or.inl rfl | exact Or.inr ⟨_, rfl⟩

theorem Decr_items (bc : MemoryCache) (key : String) :
    (bc.Decr key).2.items = bc.items ∨
      ∃ v, (bc.Decr key).2.items = setVal key v bc.items := by
  unfold MemoryCache.Decr
  split
  · exact Or.inl rfl
  · split <;> first
      | exact Or.inl rfl
      | exact Or.inr ⟨_, rfl⟩
      | (split <;> first | exact Or.inl rfl | exact Or.inr ⟨_, rfl⟩)

theorem Delete_items (bc : MemoryCache) (name : String) :
    (bc.Delete name).2.items = bc.items ∨
      (bc.Delete name).2.items = mapDelete name bc.items := by
  unfold MemoryCache.Delete
  split
  · exact Or.inl rfl
  · split <;> exact Or.inr rfl

/-! ## A pinned entry stays -/

theorem Pinned_ttr (w : World) (name : String) (t0 : Int) (v : Value)
    (hp : w.Pinned name t0 v) : ∀ p ∈ entriesOf name w.cache.items, p.2.ttr = 0 := by
  intro p hm
  rw [hp.1] at hm
  simp only [List.mem_singleton] at hm
  rw [hm]

theorem Pinned_mapIndex (w : World) (name : String) (t0 : Int) (v : Value)
    (hp : w.Pinned name t0 v) :
    mapIndex name w.cache.items = some { val := v, createdAt := t0, ttr := 0 } := by
  rw [mapIndex_eq_head, hp.1]
  rfl

/-- One call that is neither a `Put` nor a `Delete` of the key nor a `ClearAll`
keeps the entry pinned, and keeps its value unless it is an `Incr` or a `Decr`
of the key. -/
theorem step_pinned (w : World) (name : String) (t0 : Int) (v : Value) (op : Op)
    (hp : w.Pinned name t0 v) (hr : op.replaces name = false) :
    ∃ v2, (w.step op).Pinned name t0 v2 ∧ (op.adjusts name = false → v2 = v) := by
  obtain ⟨he, hk⟩ := hp
  cases op with
  | Put n value ttr now =>
    have hn : n ≠ name := by simpa [Op.replaces] using hr
    refine ⟨v, ⟨?_, hk⟩, fun _ => rfl⟩
    simp only [World.step, MemoryCache.Put]
    rw [entriesOf_mapAssign_ne name n hn]
    exact he
  | Delete n =>
    have hn : n ≠ name := by simpa [Op.replaces] using hr
    refine ⟨v, ⟨?_, hk⟩, fun _ => rfl⟩
    simp only [World.step]
    rcases Delete_items w.cache n with h | h
    · rw [h]; exact he
    · rw [h, entriesOf_mapDelete_ne name n hn]; exact he
  | Incr key =>
    simp only [World.step]
    rcases Incr_items w.cache key with h | ⟨v2, h⟩
    · exact ⟨v, ⟨by rw [h]; exact he, hk⟩, fun _ => rfl⟩
    · by_cases hkey : key = name
      · subst hkey
        refine ⟨v2, ⟨?_, hk⟩, fun ha => ?_⟩
        · rw [h, entriesOf_setVal_self key v2 _ _ he]
        · simp [Op.adjusts] at ha
      · exact ⟨v, ⟨by rw [h, entriesOf_setVal_ne name key hkey]; exact he, hk⟩, fun _ => rfl⟩
  | Decr key =>
    simp only [World.step]
    rcases Decr_items w.cache key with h | ⟨v2, h⟩
    · exact ⟨v, ⟨by rw [h]; exact he, hk⟩, fun _ => rfl⟩
    · by_cases hkey : key = name
      · subst hkey
        refine ⟨v2, ⟨?_, hk⟩, fun ha => ?_⟩
        · rw [h, entriesOf_setVal_self key v2 _ _ he]
        · simp [Op.adjusts] at ha
      · exact ⟨v, ⟨by rw [h, entriesOf_setVal_ne name key hkey]; exact he, hk⟩, fun _ => rfl⟩
  | ClearAll => simp [Op.replaces] at hr
  | expiredKeys clock =>
    refine ⟨v, ⟨he, ?_⟩, fun _ => rfl⟩
    exact not_mem_expiredKeys w.cache name clock (Pinned_ttr w name t0 v ⟨he, hk⟩)
  | clearItems =>
    refine ⟨v, ?_, fun _ => rfl⟩
    simp only [World.step]
    split_ifs
    · refine ⟨?_, by simp⟩
      simp only [MemoryCache.clearItems]
      rw [entriesOf_clearItems name w.keys hk]
      exact he
    · exact ⟨he, by simp⟩

theorem run_pinned (name : String) (t0 : Int) (ops : List Op) :
    ∀ (w : World) (v : Value), w.Pinned name t0 v →
      (∀ op ∈ ops, Op.replaces name op = false) →
      ∃ v2, (w.run ops).Pinned name t0 v2 ∧
        ((∀ op ∈ ops, Op.adjusts name op = false) → v2 = v) := by
  induction ops with
  | nil => intro w v hp _; exact ⟨v, hp, fun _ => rfl⟩
  | cons op ops ih =>
    intro w v hp hr
    obtain ⟨v1, hp1, hv1⟩ := step_pinned w name t0 v op hp (hr op (List.mem_cons_self _ _))
    obtain ⟨v2, hp2, hv2⟩ := ih (w.step op) v1 hp1
      (fun o ho => hr o (List.mem_cons_of_mem _ ho))
    refine ⟨v2, ?_, fun ha => ?_⟩
    · simpa [World.run] using hp2
    · rw [hv2 (fun o ho => ha o (List.mem_cons_of_mem _ ho)),
        hv1 (ha op (List.mem_cons_self _ _))]

theorem Put_pinned (c : MemoryCache) (keys : List String) (name : String)
    (value : Value) (t0 : Int) (hk : name ∉ keys) :
    (World.mk (c.Put name value 0 t0).2 keys).Pinned name t0 value :=
  ⟨entriesOf_mapAssign_self name _ c.items, hk⟩

theorem Pinned_Get (w : World) (name : String) (t0 : Int) (v : Value) (now : Int)
    (hp : w.Pinned name t0 v) : w.cache.Get name now = v := by
  simp [MemoryCache.Get, Pinned_mapIndex w name t0 v hp, MemoryItem.isExpire]

theorem Pinned_IsExist (w : World) (name : String) (t0 : Int) (v : Value) (now : Int)
    (hp : w.Pinned name t0 v) : w.cache.IsExist name now = true := by
  simp [MemoryCache.IsExist, Pinned_mapIndex w name t0 v hp, MemoryItem.isExpire]

theorem Pinned_vacuumRound (w : World) (name : String) (t0 : Int) (v : Value)
    (clock : String → Int) (hp : w.Pinned name t0 v) :
    (World.mk (w.cache.vacuumRound clock) []).Pinned name t0 v := by
  refine ⟨?_, by simp⟩
  have hn := not_mem_expiredKeys w.cache name clock (Pinned_ttr w name t0 v hp)
  simp only [MemoryCache.vacuumRound]
  split_ifs
  · simp only [MemoryCache.clearItems]
    rw [entriesOf_clearItems name _ hn]
    exact hp.1
  · exact hp.1

/-! ## Permanent entries -/

/-- C11, the claim fails: after `Put("k", 1, 0)` on a new cache, with no
`Delete`, `ClearAll` or later `Put`, a call of `Incr("k")` succeeds and `Get("k")`
returns 2, not the value that was put. -/
theorem Put_then_Incr_changes_value :
    (NewMemoryCache.Put "k" (Value.int 1) 0 0).1 = none ∧
      Op.replaces "k" (Op.Incr "k") = false ∧
      ((NewMemoryCache.Put "k" (Value.int 1) 0 0).2.Incr "k").1 = none ∧
      ((NewMemoryCache.Put "k" (Value.int 1) 0 0).2.Incr "k").2.Get "k" 5 = Value.int 2 ∧
      ((NewMemoryCache.Put "k" (Value.int 1) 0 0).2.Incr "k").2.Get "k" 5 ≠ Value.int 1 := by
  decide

/-- C11 as amended: take a `Put(key, value, 0)` made while `vacuum` is not
between its `expiredKeys` and its `clearItems` with the key in the list it
holds (`hk`), and any later calls, none of which is a `Put` or a `Delete` of
the key or a `ClearAll` (`hr`). Under these two conditions, at every time
`IsExist(key)` is true, `expiredKeys` does not list the key, and a round of
`vacuum` (`expiredKeys` followed by `clearItems`) keeps the entry; when in
addition none of the calls is an `Incr` or a `Decr` of the key, `Get(key)`
returns the value at every time, also after a round of `vacuum`. -/
theorem permanent_entry (c : MemoryCache) (keys : List String) (name : String)
    (value : Value) (t0 : Int) (ops : List Op) (hk : name ∉ keys)
    (hr : ∀ op ∈ ops, Op.replaces name op = false) :
    (∀ now, ((World.mk (c.Put name value 0 t0).2 keys).run ops).cache.IsExist name now
        = true) ∧
    (∀ clock, name ∉
        ((World.mk (c.Put name value 0 t0).2 keys).run ops).cache.expiredKeys clock) ∧
    (∀ clock now,
        (((World.mk (c.Put name value 0 t0).2 keys).run ops).cache.vacuumRound
          clock).IsExist name now = true) ∧
    ((∀ op ∈ ops, Op.adjusts name op = false) →
      (∀ now, ((World.mk (c.Put name value 0 t0).2 keys).run ops).cache.Get name now
          = value) ∧
      ∀ clock now,
        (((World.mk (c.Put name value 0 t0).2 keys).run ops).cache.vacuumRound
          clock).Get name now = value) := by
  obtain ⟨v2, hp, hv⟩ := run_pinned name t0 ops _ value
    (Put_pinned c keys name value t0 hk) hr
  generalize (World.mk (c.Put name value 0 t0).2 keys).run ops = w at hp
  refine ⟨fun now => Pinned_IsExist w name t0 v2 now hp,
    fun clock => not_mem_expiredKeys w.cache name clock (Pinned_ttr w name t0 v2 hp),
    fun clock now => Pinned_IsExist _ name t0 v2 now (Pinned_vacuumRound w name t0 v2 clock hp),
    fun ha => ?_⟩
  have hv2 := hv ha
  subst hv2
  exact ⟨fun now => Pinned_Get w name t0 v2 now hp,
    fun clock now => Pinned_Get _ name t0 v2 now (Pinned_vacuumRound w name t0 v2 clock hp)⟩

theorem permanent_entry_witness :
    "k" ∉ ([] : List String) ∧
      (∀ op ∈ [Op.Put "j" (Value.int 7) 1 2, Op.expiredKeys (fun _ => 100), Op.clearItems,
          Op.Incr "j", Op.Delete "j"], Op.replaces "k" op = false) ∧
      (∀ op ∈ [Op.Put "j" (Value.int 7) 1 2, Op.expiredKeys (fun _ => 100), Op.clearItems,
          Op.Incr "j", Op.Delete "j"], Op.adjusts "k" op = false) ∧
      ((World.mk (NewMemoryCache.Put "k" (Value.other "v") 0 1).2 []).run
          [Op.Put "j" (Value.int 7) 1 2, Op.expiredKeys (fun _ => 100), Op.clearItems,
            Op.Incr "j", Op.Delete "j"]).cache.IsExist "k" 1000 = true ∧
      ((World.mk (NewMemoryCache.Put "k" (Value.other "v") 0 1).2 []).run
          [Op.Put "j" (Value.int 7) 1 2, Op.expiredKeys (fun _ => 100), Op.clearItems,
            Op.Incr "j", Op.Delete "j"]).cache.Get "k" 1000 = Value.other "v" :=
  ⟨by decide, by decide, by decide,
    (permanent_entry NewMemoryCache [] "k" (Value.other "v") 1
      [Op.Put "j" (Value.int 7) 1 2, Op.expiredKeys (fun _ => 100), Op.clearItems,
        Op.Incr "j", Op.Delete "j"] (by decide) (by decide)).1 1000,
    ((permanent_entry NewMemoryCache [] "k" (Value.other "v") 1
      [Op.Put "j" (Value.int 7) 1 2, Op.expiredKeys (fun _ => 100), Op.clearItems,
        Op.Incr "j", Op.Delete "j"] (by decide) (by decide)).2.2.2 (by decide)).1 1000⟩

/-- The interleaving that the amended statement of C11 leaves out, a defect
against the comment of `Put` (with `ttr = 0` the entry is cached for good):
`expiredKeys` lists the key while its old entry is expired, `Put(key, value, 0)`
runs before `clearItems`, and `clearItems`, which does not look at `isExpire`
again, deletes the new entry. -/
theorem clearItems_after_interleaved_Put :
    ((World.mk (NewMemoryCache.Put "k" (Value.other "old") 1 0).2 []).run
        [Op.expiredKeys (fun _ => 10), Op.Put "k" (Value.other "new") 0 11,
          Op.clearItems]).cache.Get "k" 12 = Value.nil := by
  decide

end cache

/-! # Delayed tasks: the task count -/

namespace delaytask

/-- Adding a task keeps `Count()` equal to the number of pending timers, short
of `2^64` of them. -/
theorem addTask_count (d : DelayTask) (delay : Int) (taskId : TaskId)
    (h : d.count = d.tw.pending.length) (hlt : d.tw.pending.length + 1 < 18446744073709551616) :
    (d.addTask delay taskId).count = (d.addTask delay taskId).tw.pending.length := by
  simp only [DelayTask.addTask, TimeWheel.AddTimer, List.length_append, List.length_singleton]
  omega

/-- A timer that fires on the scheduler that `delayTask` points to keeps its
`count` equal to the number of pending timers. -/
theorem expire_callback_count (d : DelayTask) (taskId : TaskId)
    (hm : taskId ∈ d.tw.pending) (h : d.count = d.tw.pending.length)
    (hlt : d.tw.pending.length < 18446744073709551616) :
    ((d.expire taskId).callback).count = ((d.expire taskId).callback).tw.pending.length := by
  have hpos : 0 < d.tw.pending.length := List.length_pos_of_mem hm
  simp only [DelayTask.expire, DelayTask.callback, List.length_erase_of_mem hm]
  omega

theorem length_RemoveTimer (key : TaskId) (l : List TaskId) :
    (l.filter (fun k => decide (k ≠ key))).length + l.count key = l.length := by
  induction l with
  | nil => rfl
  | cons a l ih =>
    simp only [ne_eq, decide_not] at ih ⊢
    by_cases h : a = key
    · simp [List.filter_cons, h]
      omega
    · simp [List.filter_cons, h, List.count_cons]
      omega

/-- Removing a task that is pending exactly once keeps `Count()` equal to the
number of pending timers. -/
theorem RemoveTask_count (d : DelayTask) (taskId : TaskId)
    (h : d.count = d.tw.pending.length) (hlt : d.tw.pending.length < 18446744073709551616)
    (hone : d.tw.pending.count taskId = 1) :
    (d.RemoveTask taskId).count = (d.RemoveTask taskId).tw.pending.length := by
  have := length_RemoveTimer taskId d.tw.pending
  simp only [DelayTask.RemoveTask, TimeWheel.RemoveTimer]
  omega

/-- C12, the defect on the run of `TestRemoveDelayTask`: after `NewDelayTask`
and `AddTask` of the task with id `"-1"`, `Count()` is 1 with one timer
pending; `RemoveTask(-1)`, an id that was never added, leaves the timer pending
and takes `Count()` to 0; when the timer then fires, `Count()` wraps to
`2^64 - 1`, as it does when `RemoveTask` is called on a scheduler without
tasks. -/
theorem RemoveTask_unknown_id_decrements :
    AddTask (NewDelayTask Package.init).2 [testTask] =
        some ⟨[⟨⟨[TaskId.str "-1"]⟩, 1⟩], some 0⟩ ∧
      Count ⟨[⟨⟨[TaskId.str "-1"]⟩, 1⟩], some 0⟩ = some 1 ∧
      RemoveTask ⟨[⟨⟨[TaskId.str "-1"]⟩, 1⟩], some 0⟩ (TaskId.int (-1)) =
        some ⟨[⟨⟨[TaskId.str "-1"]⟩, 0⟩], some 0⟩ ∧
      Count ⟨[⟨⟨[TaskId.str "-1"]⟩, 0⟩], some 0⟩ = some 0 ∧
      Count (Package.fire ⟨[⟨⟨[TaskId.str "-1"]⟩, 0⟩], some 0⟩ 0 (TaskId.str "-1")) =
        some 18446744073709551615 ∧
      (RemoveTask (NewDelayTask Package.init).2 (TaskId.int (-1))).bind Count =
        some 18446744073709551615 := by
  decide

/-- With two schedulers the function given to the wheel of the first still
subtracts from the scheduler made last: the first scheduler adds a task and its
timer fires; its own `count` stays 1 with no timer pending, and the `count` of
the second, which never had a task, wraps to `2^64 - 1`. -/
theorem fire_subtracts_from_last_scheduler :
    Package.fire
        (((NewDelayTask (NewDelayTask Package.init).2).2).onScheduler 0
          (fun d => d.addTask 5000000000 (TaskId.str "-1")))
        0 (TaskId.str "-1") =
      ⟨[⟨⟨[]⟩, 1⟩, ⟨⟨[]⟩, 18446744073709551615⟩], some 1⟩ := by
  decide

end delaytask
